import Mathlib

/-!
# Verification of `process-earnings.js` (schwab-earnings-batch)

A shallow embedding of the single source file `process-earnings.js` and
proofs about it.

Modelling conventions:
* Calendar dates are integers (days since an arbitrary epoch).  The JS code
  manipulates dates in milliseconds but always in whole-day steps
  (`86400000` ms) and always truncates to the ISO day string
  (`toISOString().split('T')[0]`) before comparing, so integer days are a
  faithful model; stepping back `i` days is subtraction by `i`.
* Prices and percentages are exact rationals (`Rat`).  JS numbers are
  IEEE doubles; the rational model captures the arithmetic of the program
  exactly (the program text, not binary rounding noise).
* Each external HTTP response is a value of type `Fetched`: `ok` carries
  the parsed payload, `notFound` is the `{ notFound: true }` marker the
  code produces for HTTP 404 (it also stands for a body without the
  expected field / non-array body, which the code routes through the same
  early return), `error` is a rejected promise (non-200/404 status,
  network fault, invalid JSON) — it is caught by `processSymbol`'s
  `try/catch`.
* The Redis client is external; a write attempt is recorded as a
  `CacheWrite` request and `writeOk = false` models `redis.set` throwing,
  which the surrounding `try/catch` converts to a `null` result.
-/

namespace SchwabEarnings

attribute [local semireducible] Rat.add Rat.mul Rat.inv Rat.sub

/-- One row of the EODHD end-of-day price response: `{ date, close }`. -/
structure PricePoint where
  date : Int
  close : Rat
deriving DecidableEq

/-- One row of the EODHD earnings-calendar response: `{ date, ... }`
(only the date is used by the program). -/
structure EarningsEvent where
  date : Int
deriving DecidableEq

/-- The predicate `d.date === dateString` for `dateString` being
`targetDate` stepped back `i` calendar days (the JS compares ISO
day strings, i.e. calendar days). -/
def onDate (targetDate : Int) (i : Nat) (d : PricePoint) : Bool :=
  decide (d.date = targetDate - (i : Int))

/-- `findPriceOnDate(priceData, targetDate)`: try offsets
`i = 0, 1, 2, 3, 4` in order; at each offset return the close of the
first matching entry (`Array.prototype.find`); return `null` when no
offset matches.  `parseFloat` on the numeric `close` field is the
identity in the rational model. -/
def findPriceOnDate (priceData : List PricePoint) (targetDate : Int) : Option Rat :=
  (List.range 5).findSome? fun i =>
    (priceData.find? (onDate targetDate i)).map PricePoint.close

theorem findPriceOnDate_eq_none_iff (pd : List PricePoint) (t : Int) :
    findPriceOnDate pd t = none ↔
      ∀ i : Nat, i < 5 → pd.find? (onDate t i) = none := by
  unfold findPriceOnDate
  rw [List.findSome?_eq_none_iff]
  constructor
  · intro h i hi
    have h2 := h i (List.mem_range.mpr hi)
    exact Option.map_eq_none'.mp h2
  · intro h i hi
    rw [h i (List.mem_range.mp hi)]
    rfl

theorem findPriceOnDate_eq_some_iff (pd : List PricePoint) (t : Int) (r : Rat) :
    findPriceOnDate pd t = some r ↔
      ∃ i : Nat, i < 5 ∧
        (∃ m, pd.find? (onDate t i) = some m ∧ r = m.close) ∧
        ∀ k : Nat, k < i → pd.find? (onDate t k) = none := by
  unfold findPriceOnDate
  rw [List.findSome?_eq_some_iff]
  constructor
  · rintro ⟨l₁, a, l₂, hdec, hfa, hl₁⟩
    have hlen : l₁.length + l₂.length + 1 = 5 := by
      have h := congrArg List.length hdec
      simp [List.length_append, List.length_cons] at h
      omega
    have ha : a = l₁.length := by
      have h1 : (List.range 5)[l₁.length]? = some l₁.length := by
        rw [List.getElem?_range (by omega)]
      rw [hdec] at h1
      rw [List.getElem?_append_right (Nat.le_refl _)] at h1
      simp at h1
      exact h1
    have hl1 : l₁ = List.range l₁.length := by
      have h2 : (l₁ ++ a :: l₂).take l₁.length = l₁ := List.take_left l₁ _
      rw [← hdec, List.take_range] at h2
      have hmin : min l₁.length 5 = l₁.length := by omega
      rw [hmin] at h2
      exact h2.symm
    refine ⟨a, by omega, ?_, ?_⟩
    · rcases hm : pd.find? (onDate t a) with _ | m
      · rw [hm] at hfa
        simp at hfa
      · rw [hm] at hfa
        simp at hfa
        exact ⟨m, rfl, hfa.symm⟩
    · intro k hk
      have hkmem : k ∈ l₁ := by
        rw [hl1]
        exact List.mem_range.mpr (by omega)
      exact Option.map_eq_none'.mp (hl₁ k hkmem)
  · rintro ⟨i, hi5, ⟨m, hm, hr⟩, hprev⟩
    refine ⟨(List.range 5).take i, i, (List.range 5).drop (i + 1), ?_, ?_, ?_⟩
    · conv_lhs => rw [← List.take_append_drop i (List.range 5)]
      congr 1
      rw [List.drop_eq_getElem_cons (by simpa using hi5)]
      congr 1
      exact List.getElem_range _ _
    · rw [hm]
      simp [hr]
    · intro x hx
      rw [List.take_range] at hx
      have hxlt : x < i := by
        have := List.mem_range.mp hx
        omega
      rw [hprev x hxlt]
      rfl

/-- The body of the per-event loop in Step 3 of `processSymbol`:
`beforePrice = findPriceOnDate(priceData, d − 1 day)`,
`afterPrice = findPriceOnDate(priceData, d + 1 day)`, and
`if (beforePrice && afterPrice && beforePrice > 0) moves.push(|...|)`.
JS truthiness: `null` and `0` are falsy, so the guard demands that both
lookups succeeded, that neither price is `0`, and that the before-price
is positive; the pushed value is `Math.abs((after − before)/before) * 100`. -/
def obsOf (priceData : List PricePoint) (e : EarningsEvent) : Option Rat :=
  let beforePrice := findPriceOnDate priceData (e.date - 1)
  let afterPrice := findPriceOnDate priceData (e.date + 1)
  match beforePrice, afterPrice with
  | some b, some a =>
    if b ≠ 0 ∧ a ≠ 0 ∧ 0 < b then some (|(a - b) / b| * 100) else none
  | _, _ => none

/-- The `moves` array accumulated by the Step-3 loop of `processSymbol`,
one entry per earnings event that passes the guard, in event order. -/
def computeMoves (earnings : List EarningsEvent) (priceData : List PricePoint) :
    List Rat :=
  earnings.filterMap (obsOf priceData)

/-- `parseFloat(x.toFixed(2))` on an exact rational: the nearest multiple
of `1/100`, ties to the larger value (the ECMAScript `toFixed` tie rule). -/
def toFixed2 (q : Rat) : Rat := ((q * 100 + 1 / 2).floor : Rat) / 100

/-- The persisted record built in Step 5 of `processSymbol`
(`lastUpdated` is the wall-clock timestamp taken at build time). -/
structure EarningsSummary where
  symbol : String
  nextDate : Int
  avgMove : Rat
  lastUpdated : Int
deriving DecidableEq

/-- Outcome of one external fetch as seen by `processSymbol` after
`fetchJSON`: a parsed payload, the 404 marker object (also standing for a
payload missing the expected field / non-array payload, which the code
sends down the same early-`null` branch), or a raised error. -/
inductive Fetched (α : Type) where
  | ok (value : α)
  | notFound
  | error
deriving DecidableEq

/-- The `redis.set` call issued in Step 5. -/
structure CacheWrite where
  key : String
  value : EarningsSummary
  expireSeconds : Nat
deriving DecidableEq

/-- Everything the outside world feeds one `processSymbol(symbol)` call:
the two fetch responses, whether the Redis write succeeds (`false` models
`redis.set` throwing), and the wall clock used for `lastUpdated`. -/
structure SymbolEnv where
  symbol : String
  earningsResp : Fetched (List EarningsEvent)
  priceResp : Fetched (List PricePoint)
  writeOk : Bool
  now : Int
deriving DecidableEq

/-- `processSymbol` together with the cache write it attempts (if any).
Mirrors the source step by step: earnings fetch and its early returns,
price fetch and its early returns, the moves loop, the `moves.length === 0`
check, the average, the future-events filter and `futureEarnings[0]`, the
record construction, and the Redis write whose failure the `try/catch`
converts into a `null` result. -/
def processSymbolFull (today : Int) (env : SymbolEnv) :
    Option EarningsSummary × Option CacheWrite :=
  match env.earningsResp with
  | .error => (none, none)
  | .notFound => (none, none)
  | .ok earnings =>
    if earnings.length = 0 then (none, none)
    else
      match env.priceResp with
      | .error => (none, none)
      | .notFound => (none, none)
      | .ok priceData =>
        if priceData.length < 10 then (none, none)
        else
          let moves := computeMoves earnings priceData
          if moves.length = 0 then (none, none)
          else
            let avgMove := moves.sum / (moves.length : Rat)
            let futureEarnings := earnings.filter fun e => decide (today < e.date)
            match futureEarnings.head? with
            | none => (none, none)
            | some nextEv =>
              let result : EarningsSummary :=
                { symbol := env.symbol
                  nextDate := nextEv.date
                  avgMove := toFixed2 avgMove
                  lastUpdated := env.now }
              let write : CacheWrite :=
                { key := "earnings:" ++ env.symbol
                  value := result
                  expireSeconds := 2592000 }
              (if env.writeOk then some result else none, some write)

/-- The value `processSymbol` resolves with (`null` on every skip and on
every caught error). -/
def processSymbol (today : Int) (env : SymbolEnv) : Option EarningsSummary :=
  (processSymbolFull today env).1

/-- `Promise.all(batch.map(symbol => processSymbol(symbol)))`: the group's
results, in input order.  Each symbol's computation reads only its own
fetched data, so the fan-out has no shared state. -/
def processBatch (today : Int) (envs : List SymbolEnv) :
    List (Option EarningsSummary) :=
  envs.map (processSymbol today)

/-- `results.filter(r => r !== null).length`. -/
def successCount (results : List (Option EarningsSummary)) : Nat :=
  (results.filter fun r => decide (r ≠ none)).length

/-- `results.filter(r => r === null).length`. -/
def failureCount (results : List (Option EarningsSummary)) : Nat :=
  (results.filter fun r => decide (r = none)).length

/-- The ways one symbol's processing can raise: a rejected earnings fetch,
a rejected price fetch, or a throwing Redis write — all caught by the
`try/catch` around the body of `processSymbol`. -/
def raisesError (env : SymbolEnv) : Prop :=
  env.earningsResp = Fetched.error ∨ env.priceResp = Fetched.error ∨
    env.writeOk = false

/-- Modelled from the spec: the external key-value cache's
`set(key, value, {expireSeconds})` (`redis.set` of the `@upstash/redis`
client, which is not part of this repository).  Per §4.4 it writes or
overwrites the value under the key, fully replacing any prior value, with
no read-modify-write. -/
def applyWrite (cache : String → Option EarningsSummary) (w : CacheWrite) :
    String → Option EarningsSummary :=
  fun k => if k = w.key then some w.value else cache k

/-- `BATCH_SIZE = 900`. -/
def BATCH_SIZE : Nat := 900

/-- One step of the `main` loop: an external action is either processing
one group concurrently (`Promise.all` over the slice) or the 60-second
cooldown (`sleep(60000)`). -/
inductive SchedAction where
  | process (group : List String)
  | sleep (ms : Nat)
deriving DecidableEq

/-- The `for (let i = 0; i < SYMBOLS.length; i += BATCH_SIZE)` loop of
`main`, as the sequence of external actions it performs from index `i`
on: process `SYMBOLS.slice(i, i + BATCH_SIZE)`, then sleep 60000 ms
exactly when `i + BATCH_SIZE < SYMBOLS.length`. -/
def scheduleFrom (symbols : List String) (i : Nat) : List SchedAction :=
  if _h : i < symbols.length then
    SchedAction.process ((symbols.drop i).take BATCH_SIZE) ::
      (if i + BATCH_SIZE < symbols.length then
        SchedAction.sleep 60000 :: scheduleFrom symbols (i + BATCH_SIZE)
      else
        scheduleFrom symbols (i + BATCH_SIZE))
  else []
termination_by symbols.length - i
decreasing_by
  all_goals
    simp only [BATCH_SIZE]
    omega

/-- The full action sequence of `main` (the loop starts at `i = 0`). -/
def schedule (symbols : List String) : List SchedAction :=
  scheduleFrom symbols 0

/-- Contiguous groups of at most 900 symbols, in order — the reference
partition the scheduler is claimed to follow. -/
def chunks900 (l : List String) : List (List String) :=
  if l.isEmpty then []
  else l.take BATCH_SIZE :: chunks900 (l.drop BATCH_SIZE)
termination_by l.length
decreasing_by
  simp only [List.length_drop, BATCH_SIZE]
  cases l with
  | nil => simp [List.isEmpty] at *
  | cons a t => simp only [List.length_cons]; omega

theorem processSymbol_some_spec (today : Int) (env : SymbolEnv)
    (s : EarningsSummary) (h : processSymbol today env = some s) :
    ∃ evs ps nextEv,
      env.earningsResp = Fetched.ok evs ∧
      env.priceResp = Fetched.ok ps ∧
      evs.length ≠ 0 ∧
      ¬ ps.length < 10 ∧
      (computeMoves evs ps).length ≠ 0 ∧
      (evs.filter fun e => decide (today < e.date)).head? = some nextEv ∧
      env.writeOk = true ∧
      s = { symbol := env.symbol
            nextDate := nextEv.date
            avgMove := toFixed2
              ((computeMoves evs ps).sum / ((computeMoves evs ps).length : Rat))
            lastUpdated := env.now } ∧
      (processSymbolFull today env).2 =
        some { key := "earnings:" ++ env.symbol
               value := s
               expireSeconds := 2592000 } := by
  unfold processSymbol processSymbolFull at h
  rcases henv : env.earningsResp with evs | _ | _ <;> rw [henv] at h <;>
    dsimp only at h
  case notFound => simp at h
  case error => simp at h
  by_cases h1 : evs.length = 0
  · rw [if_pos h1] at h
    simp at h
  rw [if_neg h1] at h
  rcases hpr : env.priceResp with ps | _ | _ <;> rw [hpr] at h <;>
    dsimp only at h
  on_goal 2 => simp at h
  on_goal 2 => simp at h
  by_cases h2 : ps.length < 10
  · rw [if_pos h2] at h
    simp at h
  rw [if_neg h2] at h
  by_cases h3 : (computeMoves evs ps).length = 0
  · rw [if_pos h3] at h
    simp at h
  rw [if_neg h3] at h
  rcases hh : (evs.filter fun e => decide (today < e.date)).head? with _ | nextEv <;>
    rw [hh] at h
  on_goal 1 => simp at h
  dsimp only at h
  by_cases hw : env.writeOk
  · rw [if_pos hw] at h
    obtain rfl := Option.some.inj h
    refine ⟨evs, ps, nextEv, rfl, rfl, h1, h2, h3, hh, hw, rfl, ?_⟩
    simp only [processSymbolFull, henv, hpr, if_neg h1, if_neg h2, if_neg h3, hh]
  · rw [if_neg hw] at h
    simp at h

/-- C3: for every price series and target date, `findPriceOnDate` returns a
price iff some date in `[target − 4, target]` occurs in the series, and the
returned price is the close of the most recent such date (offsets tried in
order `target, target − 1, ..., target − 4`, first match wins); otherwise it
returns `null`. -/
theorem C3_locator_window (pd : List PricePoint) (t : Int) :
    ((findPriceOnDate pd t).isSome ↔ ∃ p ∈ pd, t - 4 ≤ p.date ∧ p.date ≤ t) ∧
    (∀ r : Rat, findPriceOnDate pd t = some r →
      ∃ p ∈ pd, (t - 4 ≤ p.date ∧ p.date ≤ t) ∧ r = p.close ∧
        ∀ q ∈ pd, t - 4 ≤ q.date → q.date ≤ t → q.date ≤ p.date) := by
  have part2 : ∀ r : Rat, findPriceOnDate pd t = some r →
      ∃ p ∈ pd, (t - 4 ≤ p.date ∧ p.date ≤ t) ∧ r = p.close ∧
        ∀ q ∈ pd, t - 4 ≤ q.date → q.date ≤ t → q.date ≤ p.date := by
    intro r hr
    rw [findPriceOnDate_eq_some_iff] at hr
    obtain ⟨i, hi5, ⟨m, hm, hrm⟩, hprev⟩ := hr
    have hmem : m ∈ pd := List.mem_of_find?_eq_some hm
    have hmdate : m.date = t - (i : Int) := by
      have := List.find?_some hm
      simpa [onDate] using this
    refine ⟨m, hmem, ⟨by omega, by omega⟩, hrm, ?_⟩
    intro q hq hq1 hq2
    by_contra hcon
    push_neg at hcon
    have hk : ((t - q.date).toNat : Int) = t - q.date := by omega
    have hki : (t - q.date).toNat < i := by omega
    have hnone := hprev _ hki
    have := List.find?_eq_none.mp hnone q hq
    apply this
    simp only [onDate, decide_eq_true_eq]
    omega
  refine ⟨⟨?_, ?_⟩, part2⟩
  · intro hs
    obtain ⟨r, hr⟩ := Option.isSome_iff_exists.mp hs
    obtain ⟨p, hp, hw, _⟩ := part2 r hr
    exact ⟨p, hp, hw⟩
  · rintro ⟨p, hp, hw1, hw2⟩
    rw [Option.isSome_iff_ne_none]
    intro hn
    rw [findPriceOnDate_eq_none_iff] at hn
    have hi : ((t - p.date).toNat : Int) = t - p.date := by omega
    have hi5 : (t - p.date).toNat < 5 := by omega
    have := List.find?_eq_none.mp (hn _ hi5) p hp
    apply this
    simp only [onDate, decide_eq_true_eq]
    omega

/-- Witness for C3: series with points only at dates 2 and 3, target 6
(a weekend, in the spec's example): the backward search lands on date 3. -/
theorem C3_locator_window_witness :
    ∃ p ∈ [PricePoint.mk 2 100, PricePoint.mk 3 101],
      ((6 : Int) - 4 ≤ p.date ∧ p.date ≤ 6) ∧ (101 : Rat) = p.close ∧
      ∀ q ∈ [PricePoint.mk 2 100, PricePoint.mk 3 101],
        (6 : Int) - 4 ≤ q.date → q.date ≤ 6 → q.date ≤ p.date :=
  (C3_locator_window [PricePoint.mk 2 100, PricePoint.mk 3 101] 6).2 101 (by decide)

/-- C10: even when the series has several `PricePoint`s with the same date,
`findPriceOnDate` still returns a result — the close of the first matching
entry in series order at the chosen (minimal) offset; it never raises and
never averages the duplicates.  (`Array.prototype.find` yields the first
element in order; totality of the Lean function is the no-raise part.) -/
theorem C10_duplicate_dates (pre post : List PricePoint) (m : PricePoint)
    (t : Int) (i : Nat) (hi : i < 5) (hm : m.date = t - (i : Int))
    (hpre : ∀ x ∈ pre, x.date ≠ t - (i : Int))
    (hchosen : ∀ k : Nat, k < i → ∀ x ∈ pre ++ m :: post, x.date ≠ t - (k : Int)) :
    findPriceOnDate (pre ++ m :: post) t = some m.close := by
  rw [findPriceOnDate_eq_some_iff]
  refine ⟨i, hi, ⟨m, ?_, rfl⟩, ?_⟩
  · rw [List.find?_eq_some]
    refine ⟨by simp [onDate, hm], pre, post, rfl, ?_⟩
    intro a ha
    simp [onDate, hpre a ha]
  · intro k hk
    rw [List.find?_eq_none]
    intro x hx
    simp only [onDate, decide_eq_true_eq]
    exact hchosen k hk x hx

/-- Witness for C10: duplicate date 10 with closes 5 and 7; the first
entry's close (5) is returned. -/
theorem C10_duplicate_dates_witness :
    findPriceOnDate [PricePoint.mk 10 5, PricePoint.mk 10 7] 10 =
      some (PricePoint.mk 10 5).close :=
  C10_duplicate_dates [] [PricePoint.mk 10 7] (PricePoint.mk 10 5) 10 0
    (by decide) (by decide)
    (fun x hx => absurd hx (List.not_mem_nil x))
    (fun k hk => absurd hk (Nat.not_lt_zero k))

/-- Counterexample to C2 as stated: the claim says an observation is added
whenever both sides are located and the before-price is strictly positive.
Here both sides are located (before = 100 > 0, after = 0), yet the JS guard
`beforePrice && afterPrice && beforePrice > 0` is falsy (`0` is falsy), so
no observation is added — the claimed "if and only if" fails. -/
theorem C2_counterexample :
    findPriceOnDate [PricePoint.mk 0 100, PricePoint.mk 2 0] ((1 : Int) - 1) =
        some 100 ∧
    findPriceOnDate [PricePoint.mk 0 100, PricePoint.mk 2 0] ((1 : Int) + 1) =
        some 0 ∧
    (0 : Rat) < 100 ∧
    computeMoves [EarningsEvent.mk 1] [PricePoint.mk 0 100, PricePoint.mk 2 0] =
      [] := by
  refine ⟨by decide, by decide, by norm_num, by decide⟩

/-- C2 (amended): an observation is added iff the locator finds a price at
`d − 1` and at `d + 1`, the before-price is strictly positive, and the
after-price is nonzero; the observation equals `|after − before| / before
× 100`; events with either side not-found contribute no observation and
raise no error (the per-event function is total and returns `none`). -/
theorem C2_observation_rule (pd : List PricePoint) (e : EarningsEvent) :
    (∀ b a : Rat, findPriceOnDate pd (e.date - 1) = some b →
        findPriceOnDate pd (e.date + 1) = some a →
        obsOf pd e = if 0 < b ∧ a ≠ 0 then some (|a - b| / b * 100) else none) ∧
    (findPriceOnDate pd (e.date - 1) = none → obsOf pd e = none) ∧
    (findPriceOnDate pd (e.date + 1) = none → obsOf pd e = none) ∧
    (∀ evs : List EarningsEvent, computeMoves evs pd = evs.filterMap (obsOf pd)) := by
  refine ⟨?_, ?_, ?_, fun evs => rfl⟩
  · intro b a hb ha
    unfold obsOf
    rw [hb, ha]
    dsimp only
    by_cases hc : 0 < b ∧ a ≠ 0
    · rw [if_pos hc, if_pos ⟨ne_of_gt hc.1, hc.2, hc.1⟩]
      congr 1
      rw [abs_div, abs_of_pos hc.1]
    · rw [if_neg hc, if_neg]
      rintro ⟨-, h2, h3⟩
      exact hc ⟨h3, h2⟩
  · intro hb
    unfold obsOf
    rw [hb]
  · intro ha
    unfold obsOf
    rw [ha]
    dsimp only
    rcases findPriceOnDate pd (e.date - 1) with _ | b <;> rfl

/-- Witness for C2: before = 100 at `d − 1`, after = 110 at `d + 1` — the
per-event rule applied at a concrete input (spec's example 2: a 10% move). -/
theorem C2_observation_rule_witness :
    obsOf [PricePoint.mk 0 100, PricePoint.mk 2 110] (EarningsEvent.mk 1) =
      if (0 : Rat) < 100 ∧ (110 : Rat) ≠ 0 then
        some (|(110 : Rat) - 100| / 100 * 100)
      else none :=
  (C2_observation_rule [PricePoint.mk 0 100, PricePoint.mk 2 110]
    (EarningsEvent.mk 1)).1 100 110 (by decide) (by decide)

theorem head?_mem {α : Type} {l : List α} {x : α} (hh : l.head? = some x) :
    x ∈ l := by
  cases hf : l with
  | nil => rw [hf] at hh; simp at hh
  | cons y ys =>
    rw [hf] at hh
    simp at hh
    subst hh
    exact List.mem_cons_self y ys

/-- The next-earnings selection as the spec words it: among the events with
announcement date strictly after `today`, the earliest date. -/
def specNextDate (today : Int) (events : List EarningsEvent) : Option Int :=
  ((events.filter fun e => decide (today < e.date)).map EarningsEvent.date).min?

/-- A ten-point price series (dates 0..9, close 100), rich enough to pass
the length check and to price events inside it. -/
def pricesTen : List PricePoint :=
  [PricePoint.mk 0 100, PricePoint.mk 1 100, PricePoint.mk 2 100,
   PricePoint.mk 3 100, PricePoint.mk 4 100, PricePoint.mk 5 100,
   PricePoint.mk 6 100, PricePoint.mk 7 100, PricePoint.mk 8 100,
   PricePoint.mk 9 100]

/-- Events in non-chronological order: both are future relative to
`today = 0`, with the later one first. -/
def envC1bad : SymbolEnv :=
  { symbol := "ACME"
    earningsResp := Fetched.ok [EarningsEvent.mk 2, EarningsEvent.mk 1]
    priceResp := Fetched.ok pricesTen
    writeOk := true
    now := 0 }

/-- Counterexample to C1 as stated: with the future events out of
chronological order, the summary's next date is 2 — the first future event
in input order (`futureEarnings[0]`) — while the earliest announcement
date strictly after `today = 0` among all events is 1. -/
theorem C1_counterexample :
    (processSymbol 0 envC1bad).map EarningsSummary.nextDate = some 2 ∧
    envC1bad.earningsResp =
      Fetched.ok [EarningsEvent.mk 2, EarningsEvent.mk 1] ∧
    specNextDate 0 [EarningsEvent.mk 2, EarningsEvent.mk 1] = some 1 ∧
    ¬ ((2 : Int) ≤ 1) := by
  refine ⟨by decide, rfl, by decide, by decide⟩

/-- C1 (amended): the next-earnings date emitted in the summary is the
announcement date of the first event in input order whose date is strictly
after `today` (`futureEarnings[0]`); when the events list is chronologically
sorted this coincides with the earliest future date; and if no event is
strictly after `today`, no summary is produced for that symbol. -/
theorem C1_next_date_rule (today : Int) (env : SymbolEnv) :
    (∀ s, processSymbol today env = some s →
      ∃ evs nextEv, env.earningsResp = Fetched.ok evs ∧
        (evs.filter fun e => decide (today < e.date)).head? = some nextEv ∧
        s.nextDate = nextEv.date ∧ today < s.nextDate ∧
        (List.Pairwise (fun a b : EarningsEvent => a.date ≤ b.date) evs →
          ∀ e ∈ evs, today < e.date → s.nextDate ≤ e.date)) ∧
    (∀ evs, env.earningsResp = Fetched.ok evs →
      (∀ e ∈ evs, e.date ≤ today) → processSymbol today env = none) := by
  constructor
  · intro s hps
    obtain ⟨evs, ps, nextEv, hevs, hpr, -, -, -, hh, -, rfl, -⟩ :=
      processSymbol_some_spec today env s hps
    have hmemf := head?_mem hh
    obtain ⟨hmem, hfut⟩ := List.mem_filter.mp hmemf
    refine ⟨evs, nextEv, hevs, hh, rfl, by simpa using hfut, ?_⟩
    intro hsort e he hef
    have hpf := hsort.filter (fun e => decide (today < e.date))
    rcases hf : evs.filter (fun e => decide (today < e.date)) with _ | ⟨y, ys⟩
    · rw [hf] at hh
      simp at hh
    · rw [hf] at hh
      simp at hh
      subst hh
      rw [hf] at hpf
      have hemem : e ∈ y :: ys := by
        rw [← hf]
        exact List.mem_filter.mpr ⟨he, by simpa using hef⟩
      rcases List.mem_cons.mp hemem with rfl | hin
      · exact le_refl _
      · exact (List.pairwise_cons.mp hpf).1 e hin
  · intro evs hevs hall
    cases hps : processSymbol today env with
    | none => rfl
    | some s =>
      exfalso
      obtain ⟨evs', ps, nextEv, hevs', -, -, -, -, hh, -, -, -⟩ :=
        processSymbol_some_spec today env s hps
      rw [hevs] at hevs'
      injection hevs' with he'
      subst he'
      obtain ⟨hmem, hfut⟩ := List.mem_filter.mp (head?_mem hh)
      have hlt : today < nextEv.date := by simpa using hfut
      have := hall nextEv hmem
      omega

/-- A sorted-events environment matching the spec's example 6: one past
event and two future ones in chronological order; `today = 0`. -/
def envC1good : SymbolEnv :=
  { symbol := "DAL"
    earningsResp :=
      Fetched.ok [EarningsEvent.mk (-5), EarningsEvent.mk 3, EarningsEvent.mk 4]
    priceResp := Fetched.ok pricesTen
    writeOk := true
    now := 0 }

/-- Witness for C1 (amended): the sorted example produces next date 3 —
the earliest future event. -/
theorem C1_next_date_rule_witness :
    ∃ evs nextEv, envC1good.earningsResp = Fetched.ok evs ∧
      (evs.filter fun e => decide ((0 : Int) < e.date)).head? = some nextEv ∧
      (EarningsSummary.mk "DAL" 3 0 0).nextDate = nextEv.date ∧
      (0 : Int) < (EarningsSummary.mk "DAL" 3 0 0).nextDate ∧
      (List.Pairwise (fun a b : EarningsEvent => a.date ≤ b.date) evs →
        ∀ e ∈ evs, (0 : Int) < e.date →
          (EarningsSummary.mk "DAL" 3 0 0).nextDate ≤ e.date) :=
  (C1_next_date_rule 0 envC1good).1 (EarningsSummary.mk "DAL" 3 0 0) (by decide)

/-- C7: `estimate` produces no summary (a skip, not an error) whenever the
symbol has zero earnings events — regardless of how rich the price data is —
and likewise whenever the price series has fewer than 10 points, regardless
of the earnings data (so the earnings dates never influence the outcome in
that case). -/
theorem C7_skip_conditions (today : Int) (sym : String) (w : Bool) (now : Int) :
    (∀ pr : Fetched (List PricePoint),
      processSymbol today ⟨sym, Fetched.ok [], pr, w, now⟩ = none) ∧
    (∀ (er : Fetched (List EarningsEvent)) (ps : List PricePoint),
      ps.length < 10 →
        processSymbol today ⟨sym, er, Fetched.ok ps, w, now⟩ = none) := by
  constructor
  · intro pr
    cases hps : processSymbol today ⟨sym, Fetched.ok [], pr, w, now⟩ with
    | none => rfl
    | some s =>
      exfalso
      obtain ⟨evs, ps, nextEv, hevs, -, hne, -, -, -, -, -, -⟩ :=
        processSymbol_some_spec today _ s hps
      simp only at hevs
      injection hevs with he
      subst he
      simp at hne
  · intro er ps hlen
    cases hps : processSymbol today ⟨sym, er, Fetched.ok ps, w, now⟩ with
    | none => rfl
    | some s =>
      exfalso
      obtain ⟨evs, ps', nextEv, -, hps', -, h10, -, -, -, -, -⟩ :=
        processSymbol_some_spec today _ s hps
      simp only at hps'
      injection hps' with he
      subst he
      exact h10 hlen

/-- Witness for C7: nine price points (one fewer than ten) and a valid
earnings event still yield a skip. -/
theorem C7_skip_conditions_witness :
    processSymbol 0
      ⟨"XYZ", Fetched.ok [EarningsEvent.mk 5],
        Fetched.ok (pricesTen.take 9), true, 0⟩ = none :=
  (C7_skip_conditions 0 "XYZ" true 0).2 (Fetched.ok [EarningsEvent.mk 5])
    (pricesTen.take 9) (by decide)

/-- C8: every persisted summary satisfies the invariant: its average move is
derived from a nonempty set of observations, and its next announcement date
is strictly later than the run's reference `today`. -/
theorem C8_summary_invariant (today : Int) (env : SymbolEnv)
    (s : EarningsSummary) (h : processSymbol today env = some s) :
    today < s.nextDate ∧
    ∃ evs ps, env.earningsResp = Fetched.ok evs ∧
      env.priceResp = Fetched.ok ps ∧
      computeMoves evs ps ≠ [] ∧
      s.avgMove = toFixed2
        ((computeMoves evs ps).sum / ((computeMoves evs ps).length : Rat)) := by
  obtain ⟨evs, ps, nextEv, hevs, hps, -, -, hmv, hh, -, rfl, -⟩ :=
    processSymbol_some_spec today env s h
  obtain ⟨hmem, hfut⟩ := List.mem_filter.mp (head?_mem hh)
  refine ⟨by simpa using hfut, evs, ps, hevs, hps, ?_, rfl⟩
  intro hnil
  rw [hnil] at hmv
  simp at hmv

/-- Witness for C8, at the sorted example environment. -/
theorem C8_summary_invariant_witness :
    (0 : Int) < (EarningsSummary.mk "DAL" 3 0 0).nextDate ∧
    ∃ evs ps, envC1good.earningsResp = Fetched.ok evs ∧
      envC1good.priceResp = Fetched.ok ps ∧
      computeMoves evs ps ≠ [] ∧
      (EarningsSummary.mk "DAL" 3 0 0).avgMove = toFixed2
        ((computeMoves evs ps).sum / ((computeMoves evs ps).length : Rat)) :=
  C8_summary_invariant 0 envC1good (EarningsSummary.mk "DAL" 3 0 0) (by decide)

/-- Rounding to 2 decimal places, half away from zero — the rule as the
spec words it.  On nonnegative inputs it coincides with `toFixed2`. -/
def roundHalfAwayFromZero2 (q : Rat) : Rat :=
  if 0 ≤ q then ((q * 100 + 1 / 2).floor : Rat) / 100
  else -(((-q * 100 + 1 / 2).floor : Rat) / 100)

theorem toFixed2_eq_away (q : Rat) (hq : 0 ≤ q) :
    toFixed2 q = roundHalfAwayFromZero2 q := by
  unfold toFixed2 roundHalfAwayFromZero2
  rw [if_pos hq]

theorem computeMoves_nonneg (evs : List EarningsEvent)
    (ps : List PricePoint) : ∀ m ∈ computeMoves evs ps, 0 ≤ m := by
  intro m hm
  unfold computeMoves at hm
  obtain ⟨e, he, hobs⟩ := List.mem_filterMap.mp hm
  unfold obsOf at hobs
  rcases hb : findPriceOnDate ps (e.date - 1) with _ | b <;> rw [hb] at hobs <;>
    dsimp only at hobs
  · exact absurd hobs (by simp)
  rcases ha : findPriceOnDate ps (e.date + 1) with _ | a <;> rw [ha] at hobs <;>
    dsimp only at hobs
  · exact absurd hobs (by simp)
  rcases Decidable.em (b ≠ 0 ∧ a ≠ 0 ∧ 0 < b) with hc | hc
  · rw [if_pos hc] at hobs
    obtain rfl := Option.some.inj hobs
    positivity
  · rw [if_neg hc] at hobs
    exact absurd hobs (by simp)

/-- C4: whenever at least one observation exists and a summary is produced,
its `averageMovePercent` equals the arithmetic mean of all observations,
rounded to 2 decimal places half-away-from-zero (the mean of absolute
moves is nonnegative, where this coincides with JS `toFixed(2)`). -/
theorem C4_average_rounding (today : Int) (env : SymbolEnv)
    (s : EarningsSummary) (h : processSymbol today env = some s) :
    ∃ evs ps, env.earningsResp = Fetched.ok evs ∧
      env.priceResp = Fetched.ok ps ∧
      computeMoves evs ps ≠ [] ∧
      s.avgMove = roundHalfAwayFromZero2
        ((computeMoves evs ps).sum / ((computeMoves evs ps).length : Rat)) := by
  obtain ⟨evs, ps, nextEv, hevs, hps, -, -, hmv, -, -, rfl, -⟩ :=
    processSymbol_some_spec today env s h
  refine ⟨evs, ps, hevs, hps, ?_, ?_⟩
  · intro hnil
    rw [hnil] at hmv
    simp at hmv
  · show toFixed2 _ = _
    refine toFixed2_eq_away _ (div_nonneg ?_ (by positivity))
    exact List.sum_nonneg (computeMoves_nonneg evs ps)

/-- Environment for the spec's example 5: three past events whose moves are
5%, 10% and 15%, one future event, ten price points. -/
def envC4 : SymbolEnv :=
  { symbol := "NEOG"
    earningsResp := Fetched.ok
      [EarningsEvent.mk 10, EarningsEvent.mk 20, EarningsEvent.mk 30,
       EarningsEvent.mk 100]
    priceResp := Fetched.ok
      [PricePoint.mk 1 50, PricePoint.mk 2 50, PricePoint.mk 3 50,
       PricePoint.mk 4 50,
       PricePoint.mk 9 100, PricePoint.mk 11 105,
       PricePoint.mk 19 100, PricePoint.mk 21 110,
       PricePoint.mk 29 100, PricePoint.mk 31 115]
    writeOk := true
    now := 0 }

/-- Witness for C4: observations [5, 10, 15] average to exactly 10.00. -/
theorem C4_average_rounding_witness :
    (∃ evs ps, envC4.earningsResp = Fetched.ok evs ∧
      envC4.priceResp = Fetched.ok ps ∧
      computeMoves evs ps ≠ [] ∧
      (EarningsSummary.mk "NEOG" 100 10 0).avgMove = roundHalfAwayFromZero2
        ((computeMoves evs ps).sum / ((computeMoves evs ps).length : Rat))) ∧
    processSymbol 50 envC4 = some (EarningsSummary.mk "NEOG" 100 10 0) :=
  ⟨C4_average_rounding 50 envC4 (EarningsSummary.mk "NEOG" 100 10 0)
    (by decide), by decide⟩

theorem processSymbol_error_none (today : Int) (env : SymbolEnv)
    (herr : raisesError env) : processSymbol today env = none := by
  cases hps : processSymbol today env with
  | none => rfl
  | some s =>
    exfalso
    obtain ⟨evs, ps, nextEv, hevs, hpr, -, -, -, -, hw, -, -⟩ :=
      processSymbol_some_spec today env s hps
    rcases herr with h | h | h
    · rw [hevs] at h
      exact absurd h (by simp)
    · rw [hpr] at h
      exact absurd h (by simp)
    · rw [hw] at h
      exact absurd h (by simp)

/-- C6: an error raised while processing one symbol of a group is caught at
that symbol's boundary and becomes a `null` result counted as a failure;
the group is not aborted — its result list keeps one slot per symbol, and
every other slot is exactly that symbol's own result, computed from its own
data alone. -/
theorem C6_per_symbol_isolation (today : Int) (envs : List SymbolEnv)
    (j : Nat) (hj : j < envs.length) (herr : raisesError envs[j]) :
    (processBatch today envs).length = envs.length ∧
    (processBatch today envs)[j]? = some none ∧
    (∀ k : Nat, (processBatch today envs)[k]? =
      (envs[k]?).map (processSymbol today)) ∧
    1 ≤ failureCount (processBatch today envs) := by
  have hnone : processSymbol today envs[j] = none :=
    processSymbol_error_none today envs[j] herr
  refine ⟨by simp [processBatch], ?_, ?_, ?_⟩
  · rw [processBatch, List.getElem?_map, List.getElem?_eq_getElem hj]
    simp [hnone]
  · intro k
    rw [processBatch, List.getElem?_map]
  · have hmem : (none : Option EarningsSummary) ∈ processBatch today envs := by
      have : processSymbol today envs[j] ∈ processBatch today envs :=
        List.mem_map_of_mem (processSymbol today) (envs.getElem_mem hj)
      rwa [hnone] at this
    have hmemf : (none : Option EarningsSummary) ∈
        (processBatch today envs).filter fun r => decide (r = none) :=
      List.mem_filter.mpr ⟨hmem, by simp⟩
    have := List.ne_nil_of_mem hmemf
    rw [failureCount]
    exact List.length_pos.mpr this

/-- A symbol whose earnings fetch rejects. -/
def envBad : SymbolEnv :=
  { symbol := "BAD"
    earningsResp := Fetched.error
    priceResp := Fetched.ok pricesTen
    writeOk := true
    now := 0 }

/-- Witness for C6: a two-symbol group where the first symbol's fetch
raises; the second symbol still produces its own result. -/
theorem C6_per_symbol_isolation_witness :
    (processBatch 0 [envBad, envC1good]).length = 2 ∧
    (processBatch 0 [envBad, envC1good])[0]? = some none ∧
    (∀ k : Nat, (processBatch 0 [envBad, envC1good])[k]? =
      ([envBad, envC1good][k]?).map (processSymbol 0)) ∧
    1 ≤ failureCount (processBatch 0 [envBad, envC1good]) :=
  C6_per_symbol_isolation 0 [envBad, envC1good] 0 (by decide) (Or.inl rfl)

/-- C9: every successful summary is written under the key
`"earnings:" ++ symbol` with a 2592000-second expiration; the write request
carries the summary itself, and applying it to any cache replaces the value
at that key and nothing else; a failed write yields no summary for that
symbol (a per-symbol failure) and does not abort the batch. -/
theorem C9_cache_write (today : Int) (env : SymbolEnv) :
    (∀ s, processSymbol today env = some s →
      (processSymbolFull today env).2 =
        some { key := "earnings:" ++ env.symbol
               value := s
               expireSeconds := 2592000 }) ∧
    (env.writeOk = false → processSymbol today env = none) ∧
    (∀ (cache : String → Option EarningsSummary) (w : CacheWrite),
      applyWrite cache w w.key = some w.value ∧
      ∀ k, k ≠ w.key → applyWrite cache w k = cache k) ∧
    (env.writeOk = false → ∀ envs : List SymbolEnv, env ∈ envs →
      1 ≤ failureCount (processBatch today envs)) := by
  have hfail : env.writeOk = false → processSymbol today env = none :=
    fun hw => processSymbol_error_none today env (Or.inr (Or.inr hw))
  refine ⟨?_, hfail, ?_, ?_⟩
  · intro s hps
    obtain ⟨-, -, -, -, -, -, -, -, -, -, -, hwr⟩ :=
      processSymbol_some_spec today env s hps
    exact hwr
  · intro cache w
    constructor
    · simp [applyWrite]
    · intro k hk
      simp [applyWrite, hk]
  · intro hw envs hmem
    have hmemb : (none : Option EarningsSummary) ∈ processBatch today envs := by
      have : processSymbol today env ∈ processBatch today envs :=
        List.mem_map_of_mem (processSymbol today) hmem
      rwa [hfail hw] at this
    have hmemf : (none : Option EarningsSummary) ∈
        (processBatch today envs).filter fun r => decide (r = none) :=
      List.mem_filter.mpr ⟨hmemb, by simp⟩
    rw [failureCount]
    exact List.length_pos.mpr (List.ne_nil_of_mem hmemf)

/-- Witness for C9: the successful run of the example environment attempts
exactly the write `earnings:NEOG ↦ summary` with a 30-day TTL. -/
theorem C9_cache_write_witness :
    (processSymbolFull 50 envC4).2 =
      some { key := "earnings:" ++ envC4.symbol
             value := EarningsSummary.mk "NEOG" 100 10 0
             expireSeconds := 2592000 } :=
  (C9_cache_write 50 envC4).1 (EarningsSummary.mk "NEOG" 100 10 0) (by decide)

theorem scheduleFrom_eq_chunks (l : List String) (i : Nat) :
    scheduleFrom l i =
      List.intersperse (SchedAction.sleep 60000)
        ((chunks900 (l.drop i)).map SchedAction.process) := by
  by_cases h : i < l.length
  · rw [scheduleFrom, dif_pos h]
    have hne : ¬ (l.drop i).isEmpty = true := by
      simp [List.isEmpty_iff, List.drop_eq_nil_iff]
      omega
    rw [chunks900, if_neg hne, List.map_cons]
    have hdd : (l.drop i).drop BATCH_SIZE = l.drop (i + BATCH_SIZE) :=
      List.drop_drop BATCH_SIZE i l
    by_cases h2 : i + BATCH_SIZE < l.length
    · rw [if_pos h2, scheduleFrom_eq_chunks l (i + BATCH_SIZE), hdd]
      have hne2 : ¬ (l.drop (i + BATCH_SIZE)).isEmpty = true := by
        simp [List.isEmpty_iff, List.drop_eq_nil_iff]
        omega
      have hne3 : chunks900 (l.drop (i + BATCH_SIZE)) ≠ [] := by
        rw [chunks900, if_neg hne2]
        exact List.cons_ne_nil _ _
      obtain ⟨c, cs, hcc⟩ := List.exists_cons_of_ne_nil hne3
      rw [hcc, List.map_cons, List.intersperse_cons₂]
    · rw [if_neg h2, scheduleFrom_eq_chunks l (i + BATCH_SIZE)]
      have hnil : l.drop (i + BATCH_SIZE) = [] :=
        List.drop_eq_nil_of_le (by omega)
      rw [hdd, hnil]
      rw [show chunks900 [] = [] from by rw [chunks900]; rfl]
      simp
  · rw [scheduleFrom, dif_neg h]
    rw [List.drop_eq_nil_of_le (by omega)]
    rw [show chunks900 [] = [] from by rw [chunks900]; rfl]
    simp
termination_by l.length - i
decreasing_by
  all_goals
    simp only [BATCH_SIZE]
    omega

theorem chunks900_flatten (l : List String) : (chunks900 l).flatten = l := by
  rw [chunks900]
  by_cases h : l.isEmpty = true
  · rw [if_pos h]
    simp [List.isEmpty_iff.mp h]
  · rw [if_neg h, List.flatten_cons, chunks900_flatten (l.drop BATCH_SIZE)]
    exact List.take_append_drop _ l
termination_by l.length
decreasing_by
  simp only [List.length_drop, BATCH_SIZE]
  rcases l with - | ⟨a, t⟩
  · simp at h
  · simp only [List.length_cons]
    omega

theorem chunks900_groups (l : List String) :
    ∀ g ∈ chunks900 l, g ≠ [] ∧ g.length ≤ 900 := by
  intro g hg
  rw [chunks900] at hg
  by_cases h : l.isEmpty = true
  · rw [if_pos h] at hg
    simp at hg
  · rw [if_neg h] at hg
    rcases List.mem_cons.mp hg with rfl | hg'
    · refine ⟨?_, ?_⟩
      · rw [Ne, List.take_eq_nil_iff]
        rintro (h900 | rfl)
        · simp [BATCH_SIZE] at h900
        · simp at h
      · have := List.length_take_le BATCH_SIZE l
        simp only [BATCH_SIZE] at this
        exact this
    · exact chunks900_groups (l.drop BATCH_SIZE) g hg'
termination_by l.length
decreasing_by
  simp only [List.length_drop, BATCH_SIZE]
  rcases l with - | ⟨a, t⟩
  · simp at h
  · simp only [List.length_cons]
    omega

/-- C5: the scheduler partitions the universe into contiguous groups of at
most 900 symbols in order (their concatenation is the universe and each is
nonempty), processes the groups strictly sequentially, and sleeps 60000 ms
exactly once between consecutive groups and never after the last one — the
action sequence is exactly the groups interspersed with single cooldowns. -/
theorem C5_batch_scheduler (symbols : List String) :
    schedule symbols =
      List.intersperse (SchedAction.sleep 60000)
        ((chunks900 symbols).map SchedAction.process) ∧
    (chunks900 symbols).flatten = symbols ∧
    ∀ g ∈ chunks900 symbols, g ≠ [] ∧ g.length ≤ 900 := by
  refine ⟨?_, chunks900_flatten symbols, chunks900_groups symbols⟩
  have h := scheduleFrom_eq_chunks symbols 0
  simpa [schedule] using h

/-- Witness for C5: 1801 symbols make groups of sizes [900, 900, 1] and
exactly two cooldowns (after groups 1 and 2, none after group 3). -/
theorem C5_batch_scheduler_witness :
    (List.replicate 900 "A" ≠ [] ∧ (List.replicate 900 "A").length ≤ 900) ∧
    (chunks900 (List.replicate 1801 "A")).map List.length = [900, 900, 1] ∧
    ((schedule (List.replicate 1801 "A")).filter
      fun a => decide (a = SchedAction.sleep 60000)).length = 2 := by
  have h0 : chunks900 ([] : List String) = [] := by
    rw [chunks900]
    simp
  have h3 : chunks900 (List.replicate 1 "A") = [List.replicate 1 "A"] := by
    rw [chunks900, if_neg (by simp), List.take_replicate, List.drop_replicate]
    rw [show min BATCH_SIZE 1 = 1 from by decide,
      show 1 - BATCH_SIZE = 0 from by decide,
      show List.replicate 0 "A" = [] from rfl, h0]
  have h2 : chunks900 (List.replicate 901 "A") =
      [List.replicate 900 "A", List.replicate 1 "A"] := by
    rw [chunks900, if_neg (by simp), List.take_replicate, List.drop_replicate]
    rw [show min BATCH_SIZE 901 = 900 from by decide,
      show 901 - BATCH_SIZE = 1 from by decide, h3]
  have h1 : chunks900 (List.replicate 1801 "A") =
      [List.replicate 900 "A", List.replicate 900 "A", List.replicate 1 "A"] := by
    rw [chunks900, if_neg (by simp), List.take_replicate, List.drop_replicate]
    rw [show min BATCH_SIZE 1801 = 900 from by decide,
      show 1801 - BATCH_SIZE = 901 from by decide, h2]
  refine ⟨(C5_batch_scheduler (List.replicate 1801 "A")).2.2
      (List.replicate 900 "A") ?_, ?_, ?_⟩
  · rw [h1]
    exact List.mem_cons_self _ _
  · rw [h1]
    simp only [List.map_cons, List.map_nil, List.length_replicate]
  · rw [(C5_batch_scheduler (List.replicate 1801 "A")).1, h1]
    decide

end SchwabEarnings
